import Mathlib

/-!
Verification of the french_vocabs repository: a shallow embedding of the
word-extraction pipeline (generate_words.py), the sentence-document pipeline
(generate_sentences.py) and the single-job supervisor (job_manager.py),
together with proofs of the specification's testable properties.

Text is modelled as `List Char`; Python string primitives (strip, lower,
splitlines, replace) are given explicit executable definitions covering the
character ranges the program manipulates.
-/

namespace FrenchVocab

/-- Text is a list of characters (Python `str`). -/
abbrev Str := List Char

/-- Characters removed by Python `str.strip()` (Unicode whitespace). -/
def pyIsSpace (c : Char) : Bool :=
  c = ' ' || c = '\t' || c = '\n' || c = '\r' || c.toNat = 0x0b || c.toNat = 0x0c ||
  c.toNat = 0x1c || c.toNat = 0x1d || c.toNat = 0x1e || c.toNat = 0x1f ||
  c.toNat = 0x85 || c.toNat = 0xa0 || c.toNat = 0x1680 ||
  (0x2000 ≤ c.toNat && c.toNat ≤ 0x200a) ||
  c.toNat = 0x2028 || c.toNat = 0x2029 || c.toNat = 0x202f ||
  c.toNat = 0x205f || c.toNat = 0x3000

/-- Python `s.strip()`: drop whitespace from both ends. -/
def pyStrip (s : Str) : Str :=
  ((s.dropWhile pyIsSpace).reverse.dropWhile pyIsSpace).reverse

/-- Line-boundary characters of Python `str.splitlines`. -/
def isLineBreak (c : Char) : Bool :=
  c = '\n' || c = '\r' || c.toNat = 0x0b || c.toNat = 0x0c ||
  c.toNat = 0x1c || c.toNat = 0x1d || c.toNat = 0x1e ||
  c.toNat = 0x85 || c.toNat = 0x2028 || c.toNat = 0x2029

/-- Worker for `splitlines`: `acc` holds the current line reversed. -/
def splitlinesGo (acc : Str) : Str → List Str
  | [] => if acc = [] then [] else [acc.reverse]
  | '\r' :: '\n' :: rest => acc.reverse :: splitlinesGo [] rest
  | c :: rest =>
    if isLineBreak c then acc.reverse :: splitlinesGo [] rest
    else splitlinesGo (c :: acc) rest

/-- Python `str.splitlines()` (no trailing empty line). -/
def splitlines (s : Str) : List Str := splitlinesGo [] s

/-- Python `str.lower()` restricted to the Latin letters this program uses:
ASCII A–Z and Latin-1 À–Þ (except ×) shift by 32, Œ maps to œ. -/
def pyLowerChar (c : Char) : Char :=
  if 'A' ≤ c ∧ c ≤ 'Z' then Char.ofNat (c.toNat + 32)
  else if ('À' ≤ c ∧ c ≤ 'Þ') ∧ c ≠ '×' then Char.ofNat (c.toNat + 32)
  else if c = 'Œ' then 'œ'
  else c

/-- Python `str.lower()` on a string. -/
def pyLower (s : Str) : Str := s.map pyLowerChar

/-- `s.replace("’", "'")`: normalize the curly apostrophe. -/
def replApos (s : Str) : Str :=
  s.map fun c => if c = '’' then '\'' else c

/-- `normalize` from generate_words.py: `s.strip().replace("’", "'")`. -/
def normalize (s : Str) : Str := replApos (pyStrip s)

/-- First-character class of `WORD_TOKEN`: `[A-Za-zÀ-ÖØ-öø-ÿœŒçÇ]`. -/
def isWordFirst (c : Char) : Bool :=
  ('A' ≤ c && c ≤ 'Z') || ('a' ≤ c && c ≤ 'z') ||
  ('À' ≤ c && c ≤ 'Ö') || ('Ø' ≤ c && c ≤ 'ö') || ('ø' ≤ c && c ≤ 'ÿ') ||
  c = 'œ' || c = 'Œ' || c = 'ç' || c = 'Ç'

/-- Tail-character class of `WORD_TOKEN`: adds apostrophes and hyphen. -/
def isWordRest (c : Char) : Bool :=
  isWordFirst c || c = '\'' || c = '’' || c = '-'

/-- The regex `WORD_TOKEN = ^[first][rest]*$` as a full-string match. -/
def wordToken : Str → Bool
  | [] => false
  | c :: cs => isWordFirst c && cs.all isWordRest

/-- A token is accepted when it case-insensitively equals "de la" or
matches the single-token grammar. -/
def accepted (w : Str) : Prop :=
  pyLower w = "de la".data ∨ wordToken w = true

instance (w : Str) : Decidable (accepted w) := by
  unfold accepted; infer_instance

/-- One loop iteration of `extract_words`: skip blank lines, then keep a line
when, after stripping and normalization, it is the allowed article phrase
"de la" (case-insensitively) or matches `WORD_TOKEN`. -/
def keepLine (l : Str) : Option Str :=
  if pyStrip l = [] then none
  else if pyLower (normalize (pyStrip l)) = "de la".data then
    some (normalize (pyStrip l))
  else if wordToken (normalize (pyStrip l)) = true then
    some (normalize (pyStrip l))
  else none

/-- The de-duplication loop of `extract_words`: `seen` is the set already
emitted; keeps the first occurrence of each element. -/
def dedupAcc {α : Type} [DecidableEq α] (seen : List α) : List α → List α
  | [] => []
  | w :: ws => if w ∈ seen then dedupAcc seen ws else w :: dedupAcc (w :: seen) ws

/-- `extract_words` from generate_words.py. -/
def extract_words (raw : Str) : List Str :=
  dedupAcc [] ((splitlines raw).filterMap keepLine)

/-- Reference first-seen de-duplication: keep each element at its first
position, removing later duplicates. -/
def firstSeen {α : Type} [DecidableEq α] : List α → List α
  | [] => []
  | x :: xs => x :: (firstSeen xs).filter fun b => decide (b ≠ x)

section DedupLemmas

variable {α : Type} [DecidableEq α]

theorem mem_firstSeen (a : α) : ∀ l : List α, a ∈ firstSeen l ↔ a ∈ l := by
  intro l
  induction l with
  | nil => simp [firstSeen]
  | cons x xs ih =>
    by_cases hax : a = x
    · subst hax; simp [firstSeen]
    · simp [firstSeen, List.mem_filter, ih, hax]

theorem firstSeen_nodup : ∀ l : List α, (firstSeen l).Nodup := by
  intro l
  induction l with
  | nil => simp [firstSeen]
  | cons x xs ih =>
    refine List.Nodup.cons ?_ (ih.filter _)
    intro hx
    rcases List.mem_filter.1 hx with ⟨-, hne⟩
    simp at hne

theorem firstSeen_of_nodup : ∀ l : List α, l.Nodup → firstSeen l = l := by
  intro l
  induction l with
  | nil => intro _; rfl
  | cons x xs ih =>
    intro hnd
    rcases List.nodup_cons.1 hnd with ⟨hx, hxs⟩
    rw [firstSeen, ih hxs, List.filter_eq_self.2]
    intro a ha
    simp only [decide_eq_true_eq]
    intro h
    exact hx (h ▸ ha)

theorem firstSeen_filter (p : α → Bool) :
    ∀ l : List α, firstSeen (l.filter p) = (firstSeen l).filter p := by
  intro l
  induction l with
  | nil => rfl
  | cons x xs ih =>
    by_cases hp : p x = true
    · rw [List.filter_cons_of_pos hp, firstSeen, ih, firstSeen,
        List.filter_cons_of_pos hp, List.filter_comm]
    · rw [List.filter_cons_of_neg (by simp [hp]), firstSeen,
        List.filter_cons_of_neg (by simp [hp]), ih, List.filter_filter]
      refine List.filter_congr fun a _ => ?_
      cases hpa : p a
      · simp
      · have hax : a ≠ x := fun h => hp (by rw [← h]; exact hpa)
        simp [hax]

theorem dedupAcc_eq (seen : List α) :
    ∀ l : List α, dedupAcc seen l = (firstSeen l).filter fun a => decide (a ∉ seen) := by
  intro l
  induction l generalizing seen with
  | nil => rfl
  | cons x xs ih =>
    by_cases hx : x ∈ seen
    · rw [dedupAcc, if_pos hx, ih, firstSeen,
        List.filter_cons_of_neg (by simpa using hx), List.filter_filter]
      refine List.filter_congr fun a _ => ?_
      by_cases ha : a ∈ seen
      · simp [ha]
      · have hax : a ≠ x := fun h => ha (by rw [h]; exact hx)
        simp [ha, hax]
    · rw [dedupAcc, if_neg hx, ih, firstSeen,
        List.filter_cons_of_pos (by simpa using hx), List.filter_filter]
      congr 1
      refine List.filter_congr fun a _ => ?_
      by_cases hax : a = x
      · simp [hax]
      · by_cases ha : a ∈ seen <;> simp [ha, hax]

theorem dedupAcc_nil (l : List α) : dedupAcc [] l = firstSeen l := by
  rw [dedupAcc_eq, List.filter_eq_self.2]
  intro a _
  simp

theorem firstSeen_append (l₁ l₂ : List α) :
    firstSeen (l₁ ++ l₂) = firstSeen l₁ ++ (firstSeen l₂).filter fun a => decide (a ∉ l₁) := by
  induction l₁ with
  | nil =>
    rw [List.nil_append]
    show firstSeen l₂ = [] ++ _
    rw [List.nil_append]
    exact (List.filter_eq_self.2 fun a _ => by simp).symm
  | cons x xs ih =>
    rw [List.cons_append]
    show x :: List.filter _ (firstSeen (xs ++ l₂)) =
      (x :: List.filter _ (firstSeen xs)) ++ _
    rw [ih, List.filter_append, List.cons_append, List.filter_filter]
    congr 2
    refine List.filter_congr fun a _ => ?_
    by_cases hax : a = x
    · simp [hax]
    · by_cases ha : a ∈ xs <;> simp [List.mem_cons, ha, hax]

end DedupLemmas

theorem keepLine_eq_some (l w : Str) :
    keepLine l = some w ↔ (w = normalize (pyStrip l) ∧ accepted w) := by
  unfold keepLine
  by_cases h0 : pyStrip l = []
  · rw [if_pos h0, h0]
    constructor
    · intro h
      exact Option.noConfusion h
    · rintro ⟨rfl, hacc⟩
      exact absurd hacc (by decide)
  · rw [if_neg h0]
    by_cases h1 : pyLower (normalize (pyStrip l)) = "de la".data
    · rw [if_pos h1]
      constructor
      · intro h
        have hw := Option.some.inj h
        subst hw
        exact ⟨rfl, Or.inl h1⟩
      · rintro ⟨rfl, -⟩
        rfl
    · rw [if_neg h1]
      by_cases h2 : wordToken (normalize (pyStrip l)) = true
      · rw [if_pos h2]
        constructor
        · intro h
          have hw := Option.some.inj h
          subst hw
          exact ⟨rfl, Or.inr h2⟩
        · rintro ⟨rfl, -⟩
          rfl
      · rw [if_neg h2]
        constructor
        · intro h
          exact Option.noConfusion h
        · rintro ⟨rfl, hacc⟩
          rcases hacc with h | h
          · exact absurd h h1
          · exact absurd h h2

theorem mem_extract_words {raw w : Str} :
    w ∈ extract_words raw ↔
      (∃ l ∈ splitlines raw, w = normalize (pyStrip l)) ∧ accepted w := by
  unfold extract_words
  rw [dedupAcc_nil, mem_firstSeen, List.mem_filterMap]
  constructor
  · rintro ⟨l, hl, hkl⟩
    rcases (keepLine_eq_some l w).1 hkl with ⟨hw, hacc⟩
    exact ⟨⟨l, hl, hw⟩, hacc⟩
  · rintro ⟨⟨l, hl, hw⟩, hacc⟩
    exact ⟨l, hl, (keepLine_eq_some l w).2 ⟨hw, hacc⟩⟩

theorem extract_words_nodup (raw : Str) : (extract_words raw).Nodup := by
  unfold extract_words
  rw [dedupAcc_nil]
  exact firstSeen_nodup _

theorem accepted_of_mem_extract_words {raw w : Str} (h : w ∈ extract_words raw) :
    accepted w := (mem_extract_words.1 h).2

/-- C2: `extract_words` accepts a (trimmed, apostrophe-normalized) line iff it
matches the single-token grammar or case-insensitively equals "de la"; the
returned list has no duplicates and equals the first-seen-order
de-duplication of the accepted lines. -/
theorem extract_words_spec (raw : Str) :
    (∀ w, w ∈ extract_words raw ↔
        (∃ l ∈ splitlines raw, w = normalize (pyStrip l)) ∧ accepted w)
    ∧ (extract_words raw).Nodup
    ∧ extract_words raw = firstSeen ((splitlines raw).filterMap keepLine) :=
  ⟨fun _ => mem_extract_words, extract_words_nodup raw, dedupAcc_nil _⟩

/-- C3 counterexample: on the spec's example input, `extract_words` does NOT
return `["chat", "de la"]` — the de-duplication is case-sensitive, so the
line "CHAT" is not dropped as a duplicate of "chat". -/
theorem extract_words_example_cex :
    extract_words ("chat\nCHAT\n1. chien\nde la\nbonjour!".data) ≠
      ["chat".data, "de la".data] := by decide

/-- C3 (amended): on the input "chat\nCHAT\n1. chien\nde la\nbonjour!",
`extract_words` returns exactly `["chat", "CHAT", "de la"]`: de-duplication
is case-sensitive, so "CHAT" is kept alongside "chat". -/
theorem extract_words_example :
    extract_words ("chat\nCHAT\n1. chien\nde la\nbonjour!".data) =
      ["chat".data, "CHAT".data, "de la".data] := by decide

/-! ## Batch collection loop (main of generate_words.py) -/

/-- The inner token loop of `main`: append each extracted word not already in
the current batch, breaking as soon as the batch reaches size `B`. -/
def addToBatch (B : Nat) (batch : List Str) : List Str → List Str
  | [] => batch
  | w :: ws =>
    if w ∈ batch then addToBatch B batch ws
    else if B ≤ batch.length + 1 then batch ++ [w]
    else addToBatch B (batch ++ [w]) ws

theorem addToBatch_eq (B : Nat) :
    ∀ (got batch : List Str), batch.length < B →
      addToBatch B batch got =
        batch ++ (firstSeen (got.filter fun a => decide (a ∉ batch))).take (B - batch.length) := by
  intro got
  induction got with
  | nil =>
    intro batch _
    simp [addToBatch, firstSeen]
  | cons w ws ih =>
    intro batch hlt
    by_cases hw : w ∈ batch
    · rw [addToBatch, if_pos hw, ih batch hlt, List.filter_cons_of_neg (by simp [hw])]
    · rw [addToBatch, if_neg hw, List.filter_cons_of_pos (by simp [hw]), firstSeen]
      by_cases hB : B ≤ batch.length + 1
      · rw [if_pos hB]
        have hBeq : B - batch.length = 1 := by omega
        rw [hBeq, List.take_succ_cons, List.take_zero]
      · rw [if_neg hB]
        have h2 : (batch ++ [w]).length < B := by
          rw [List.length_append, List.length_cons, List.length_nil]
          omega
        rw [ih _ h2]
        have hf : (ws.filter fun a => decide (a ∉ batch ++ [w])) =
            (ws.filter fun a => decide (a ∉ batch)).filter fun b => decide (b ≠ w) := by
          rw [List.filter_filter]
          refine List.filter_congr fun a _ => ?_
          by_cases haw : a = w
          · simp [haw]
          · by_cases hab : a ∈ batch <;> simp [hab, haw]
        rw [hf, firstSeen_filter]
        have ht : B - batch.length = (B - (batch.length + 1)) + 1 := by omega
        rw [ht, List.take_succ_cons, List.length_append, List.length_cons,
          List.length_nil, List.append_assoc, List.singleton_append]

/-- The per-batch call loop of `main`, driven by a finite trace of model
responses (`none` models a call that raised): while the batch is short of
`B` and the call budget `cap` remains, consume one response, extract its
words and add them. Returns the final batch and the number of calls made. -/
def runBatchGo (B cap : Nat) (batch : List Str) (calls : Nat) :
    List (Option Str) → List Str × Nat
  | [] => (batch, calls)
  | r :: rest =>
    if batch.length < B ∧ calls < cap then
      match r with
      | none => runBatchGo B cap batch (calls + 1) rest
      | some raw =>
        runBatchGo B cap (addToBatch B batch (extract_words raw)) (calls + 1) rest
    else (batch, calls)

/-- One collection pass: the batch starts empty with zero calls made. -/
def runBatch (B cap : Nat) (responses : List (Option Str)) : List Str × Nat :=
  runBatchGo B cap [] 0 responses

theorem runBatchGo_cons_some (B cap : Nat) (batch : List Str) (calls : Nat)
    (raw : Str) (rest : List (Option Str)) (h : batch.length < B ∧ calls < cap) :
    runBatchGo B cap batch calls (some raw :: rest) =
      runBatchGo B cap (addToBatch B batch (extract_words raw)) (calls + 1) rest := by
  simp only [runBatchGo]
  rw [if_pos h]

theorem runBatchGo_stop (B cap : Nat) (batch : List Str) (calls : Nat)
    (rs : List (Option Str)) (h : ¬(batch.length < B ∧ calls < cap)) :
    runBatchGo B cap batch calls rs = (batch, calls) := by
  cases rs with
  | nil => rfl
  | cons r rest =>
    simp only [runBatchGo]
    rw [if_neg h]

theorem addToBatch_inv (B : Nat) (batch : List Str) (got : List Str)
    (h1 : batch.Nodup) (h2 : ∀ w ∈ batch, accepted w)
    (hacc : ∀ w ∈ got, accepted w) (hlt : batch.length < B) :
    (addToBatch B batch got).Nodup
      ∧ (∀ w ∈ addToBatch B batch got, accepted w)
      ∧ (addToBatch B batch got).length ≤ B := by
  rw [addToBatch_eq B got batch hlt]
  have hsub : ∀ w ∈ (firstSeen (got.filter fun a =>
      decide (a ∉ batch))).take (B - batch.length),
      w ∈ got ∧ w ∉ batch := by
    intro w hw
    have hw2 := (mem_firstSeen w _).1 ((List.take_subset _ _) hw)
    have hw3 := List.mem_filter.1 hw2
    refine ⟨hw3.1, ?_⟩
    simpa using hw3.2
  refine ⟨?_, ?_, ?_⟩
  · refine List.Nodup.append h1 ?_ ?_
    · exact ((firstSeen_nodup _).sublist (List.take_sublist _ _))
    · intro a ha hat
      exact (hsub a hat).2 ha
  · intro w hw
    rcases List.mem_append.1 hw with h | h
    · exact h2 w h
    · exact hacc w (hsub w h).1
  · rw [List.length_append]
    have := List.length_take_le (B - batch.length)
      (firstSeen (got.filter fun a => decide (a ∉ batch)))
    omega

theorem runBatchGo_inv (B cap : Nat) :
    ∀ (rs : List (Option Str)) (batch : List Str) (calls : Nat),
      batch.Nodup → (∀ w ∈ batch, accepted w) → batch.length ≤ B →
      ((runBatchGo B cap batch calls rs).1.Nodup
        ∧ (∀ w ∈ (runBatchGo B cap batch calls rs).1, accepted w)
        ∧ (runBatchGo B cap batch calls rs).1.length ≤ B) := by
  intro rs
  induction rs with
  | nil =>
    intro batch calls h1 h2 h3
    exact ⟨h1, h2, h3⟩
  | cons r rest ih =>
    intro batch calls h1 h2 h3
    simp only [runBatchGo]
    by_cases hc : batch.length < B ∧ calls < cap
    · rw [if_pos hc]
      cases r with
      | none => exact ih batch (calls + 1) h1 h2 h3
      | some raw =>
        have hstep := addToBatch_inv B batch (extract_words raw) h1 h2
          (fun w hw => accepted_of_mem_extract_words hw) hc.1
        exact ih _ (calls + 1) hstep.1 hstep.2.1 hstep.2.2
    · rw [if_neg hc]
      exact ⟨h1, h2, h3⟩

/-- C5: every batch produced by the collection loop — in particular every
batch passed to `save_batch` — contains no duplicate tokens, only tokens
satisfying the lexical grammar (word token or the article phrase), and never
exceeds the configured target batch size `B`. -/
theorem word_batch_invariant (B cap : Nat) (responses : List (Option Str)) :
    (runBatch B cap responses).1.Nodup
    ∧ (∀ w ∈ (runBatch B cap responses).1, accepted w)
    ∧ (runBatch B cap responses).1.length ≤ B :=
  runBatchGo_inv B cap responses [] 0 List.nodup_nil (by simp) (by simp)

/-- C4: with target size B = 5, a call yielding 3 new unique tokens followed
by a call yielding 4 unique tokens of which exactly one already appeared
produces a batch of exactly 5 distinct tokens in first-seen order, after
exactly 2 calls — no further call is consumed even though more responses
remained and the second call returned more tokens than were taken. -/
theorem batch_fill_spec (cap : Nat) (r1 r2 : Str) (rest : List (Option Str))
    (hcap : 2 ≤ cap)
    (h1 : (extract_words r1).length = 3)
    (_h2 : (extract_words r2).length = 4)
    (hov : ((extract_words r2).filter fun a =>
      decide (a ∉ extract_words r1)).length = 3) :
    runBatch 5 cap (some r1 :: some r2 :: rest) =
      ((firstSeen (extract_words r1 ++ extract_words r2)).take 5, 2)
    ∧ (runBatch 5 cap (some r1 :: some r2 :: rest)).1.length = 5
    ∧ (runBatch 5 cap (some r1 :: some r2 :: rest)).1.Nodup := by
  have hg1nd := extract_words_nodup r1
  have hg2nd := extract_words_nodup r2
  have hfnd : ((extract_words r2).filter fun a =>
      decide (a ∉ extract_words r1)).Nodup := hg2nd.filter _
  have hA : addToBatch 5 [] (extract_words r1) = extract_words r1 := by
    rw [addToBatch_eq 5 _ [] (by norm_num),
      List.filter_eq_self.2 (fun a _ => by simp),
      firstSeen_of_nodup _ hg1nd, List.nil_append, List.length_nil,
      List.take_of_length_le (by rw [h1]; norm_num)]
  have hB : addToBatch 5 (extract_words r1) (extract_words r2) =
      extract_words r1 ++ ((extract_words r2).filter fun a =>
        decide (a ∉ extract_words r1)).take 2 := by
    rw [addToBatch_eq 5 _ _ (by rw [h1]; norm_num),
      firstSeen_of_nodup _ hfnd, h1]
  have hlen : (extract_words r1 ++ ((extract_words r2).filter fun a =>
      decide (a ∉ extract_words r1)).take 2).length = 5 := by
    rw [List.length_append, h1, List.length_take, hov]
    omega
  have hrun : runBatch 5 cap (some r1 :: some r2 :: rest) =
      (extract_words r1 ++ ((extract_words r2).filter fun a =>
        decide (a ∉ extract_words r1)).take 2, 2) := by
    rw [runBatch, runBatchGo_cons_some 5 cap [] 0 r1 _ ⟨by norm_num, by omega⟩,
      hA, runBatchGo_cons_some 5 cap _ 1 r2 _ ⟨by rw [h1]; norm_num, by omega⟩,
      hB, runBatchGo_stop 5 cap _ 2 rest
        (by intro hcon; rw [hlen] at hcon; exact absurd hcon.1 (by norm_num))]
  have hfs : (firstSeen (extract_words r1 ++ extract_words r2)).take 5 =
      extract_words r1 ++ ((extract_words r2).filter fun a =>
        decide (a ∉ extract_words r1)).take 2 := by
    rw [firstSeen_append, firstSeen_of_nodup _ hg1nd,
      firstSeen_of_nodup _ hg2nd, List.take_append_eq_append_take,
      List.take_of_length_le (by rw [h1]; norm_num), h1]
    norm_num
  refine ⟨?_, ?_, ?_⟩
  · rw [hrun, hfs]
  · rw [hrun]
    exact hlen
  · rw [hrun]
    refine List.Nodup.append hg1nd (hfnd.sublist (List.take_sublist _ _)) ?_
    intro a ha hat
    have hmem := List.mem_filter.1 ((List.take_subset _ _) hat)
    rw [decide_eq_true_eq] at hmem
    exact hmem.2 ha

/-- C4 witness: a concrete two-response trace ("un/deux/trois" then
"un/quatre/cinq/six" with "un" overlapping, and a third response left
unconsumed) fills a batch of 5 in exactly 2 calls. -/
theorem batch_fill_spec_witness :
    runBatch 5 200 [some ("un\ndeux\ntrois".data),
        some ("un\nquatre\ncinq\nsix".data), some ("sept".data)] =
      ((firstSeen (extract_words ("un\ndeux\ntrois".data) ++
        extract_words ("un\nquatre\ncinq\nsix".data))).take 5, 2)
    ∧ (runBatch 5 200 [some ("un\ndeux\ntrois".data),
        some ("un\nquatre\ncinq\nsix".data), some ("sept".data)]).1.length = 5
    ∧ (runBatch 5 200 [some ("un\ndeux\ntrois".data),
        some ("un\nquatre\ncinq\nsix".data), some ("sept".data)]).1.Nodup :=
  batch_fill_spec 200 ("un\ndeux\ntrois".data) ("un\nquatre\ncinq\nsix".data)
    [some ("sept".data)] (by norm_num) (by decide) (by decide) (by decide)

/-! ## File round-trip: save_batch (generate_words.py) and read_words
(generate_sentences.py) -/

/-- Python `"\n".join(words)`. -/
def joinNL : List Str → Str
  | [] => []
  | w :: ws =>
    match ws with
    | [] => w
    | _ :: _ => w ++ '\n' :: joinNL ws

/-- The file content written by `save_batch`: newline-joined words plus a
trailing newline. -/
def save_batch_content (words : List Str) : Str :=
  joinNL words ++ "\n".data

/-- Universal-newline translation performed when Python reads a text file:
a CR or CRLF becomes a single LF. -/
def newlineNorm : Str → Str
  | [] => []
  | c :: rest =>
    if c = '\r' then
      match rest with
      | [] => ['\n']
      | d :: rest2 =>
        if d = '\n' then '\n' :: newlineNorm rest2
        else '\n' :: newlineNorm (d :: rest2)
    else c :: newlineNorm rest

/-- Split on LF; the piece after the last LF is kept (possibly empty). -/
def splitNL : Str → List Str
  | [] => [[]]
  | c :: rest =>
    if c = '\n' then [] :: splitNL rest
    else
      match splitNL rest with
      | [] => [[c]]
      | p :: ps => (c :: p) :: ps

/-- `read_words` from generate_sentences.py: iterate the lines of the file,
strip each, keep the non-blank ones. -/
def read_words (content : Str) : List Str :=
  ((splitNL (newlineNorm content)).map pyStrip).filter fun w => decide (w ≠ [])

theorem newlineNorm_of_no_cr : ∀ s : Str, '\r' ∉ s → newlineNorm s = s := by
  intro s
  induction s with
  | nil => intro _; rfl
  | cons c rest ih =>
    intro h
    have hc : c ≠ '\r' := fun hcr => h (hcr ▸ List.mem_cons_self c rest)
    rw [newlineNorm.eq_def]
    simp [hc, ih fun hr => h (List.mem_cons_of_mem c hr)]

theorem splitNL_append_word (w : Str) (rest : Str) (hw : '\n' ∉ w) :
    splitNL (w ++ '\n' :: rest) = w :: splitNL rest := by
  induction w with
  | nil =>
    rw [List.nil_append, splitNL, if_pos rfl]
  | cons c w' ih =>
    have hc : c ≠ '\n' := fun h => hw (h ▸ List.mem_cons_self c w')
    rw [List.cons_append, splitNL, if_neg hc,
      ih fun h => hw (List.mem_cons_of_mem c h)]

theorem mem_joinNL {c : Char} : ∀ ws : List Str, c ∈ joinNL ws →
    c = '\n' ∨ ∃ w ∈ ws, c ∈ w := by
  intro ws
  induction ws with
  | nil => intro h; exact absurd h (List.not_mem_nil c)
  | cons w ws' ih =>
    intro h
    cases ws' with
    | nil =>
      exact Or.inr ⟨w, List.mem_cons_self w [], h⟩
    | cons v vs =>
      rw [joinNL] at h
      rcases List.mem_append.1 h with h | h
      · exact Or.inr ⟨w, List.mem_cons_self w _, h⟩
      · rcases List.mem_cons.1 h with h | h
        · exact Or.inl h
        · rcases ih h with h | ⟨u, hu, hcu⟩
          · exact Or.inl h
          · exact Or.inr ⟨u, List.mem_cons_of_mem w hu, hcu⟩

theorem read_words_join : ∀ words : List Str,
    (∀ w ∈ words, w ≠ [] ∧ pyStrip w = w ∧ '\n' ∉ w) →
    ((splitNL (joinNL words ++ "\n".data)).map pyStrip).filter
      (fun w => decide (w ≠ [])) = words := by
  intro words
  induction words with
  | nil =>
    intro _
    rfl
  | cons w ws ih =>
    intro h
    have hw := h w (List.mem_cons_self w ws)
    cases ws with
    | nil =>
      show ((splitNL (w ++ '\n' :: [])).map pyStrip).filter _ = [w]
      rw [splitNL_append_word w [] hw.2.2]
      show ((w :: [[]]).map pyStrip).filter _ = [w]
      rw [List.map_cons, List.filter_cons, hw.2.1]
      simp [hw.1, pyStrip]
    | cons v vs =>
      have hjoin : joinNL (w :: v :: vs) ++ "\n".data =
          w ++ '\n' :: (joinNL (v :: vs) ++ "\n".data) := by
        rw [joinNL]
        simp [List.append_assoc]
      rw [hjoin, splitNL_append_word w _ hw.2.2, List.map_cons,
        List.filter_cons, hw.2.1]
      have hx := ih fun u hu => h u (List.mem_cons_of_mem w hu)
      rw [if_pos (by simp [hw.1]), hx]

/-- C10: writing a list of tokens with `save_batch` and reading the file back
with `read_words` returns exactly the original list, whenever the list is
non-empty and each token is non-empty, stripped, and newline-free. -/
theorem save_read_roundtrip (words : List Str)
    (_hne : words ≠ [])
    (hw : ∀ w ∈ words, w ≠ [] ∧ pyStrip w = w ∧ '\n' ∉ w ∧ '\r' ∉ w) :
    read_words (save_batch_content words) = words := by
  have hnocr : '\r' ∉ save_batch_content words := by
    intro hmem
    rcases List.mem_append.1 hmem with h | h
    · rcases mem_joinNL words h with h | ⟨u, hu, hcu⟩
      · exact absurd h (by decide)
      · exact (hw u hu).2.2.2 hcu
    · exact absurd h (by decide)
  rw [read_words, newlineNorm_of_no_cr _ hnocr, save_batch_content]
  exact read_words_join words fun w hmem =>
    ⟨(hw w hmem).1, (hw w hmem).2.1, (hw w hmem).2.2.1⟩

/-- C10 witness: the concrete token list ["chat", "de la", "bonjour"]
round-trips through the batch file format. -/
theorem save_read_roundtrip_witness :
    read_words (save_batch_content ["chat".data, "de la".data, "bonjour".data]) =
      ["chat".data, "de la".data, "bonjour".data] :=
  save_read_roundtrip ["chat".data, "de la".data, "bonjour".data]
    (by decide) (by decide)

/-! ## Document assembly (process_file of generate_sentences.py) -/

/-- `WORDS_PER_DOC` from generate_sentences.py. -/
def WORDS_PER_DOC : Nat := 10

/-- The sub-batch split `[words[i:i+10] for i in range(0, len(words), 10)]`,
with an explicit fuel bound (the list length suffices) keeping the
definition structurally recursive. -/
def chunksGo {α : Type} : Nat → List α → List (List α)
  | _, [] => []
  | 0, _ :: _ => []
  | fuel + 1, x :: xs =>
    (x :: xs).take WORDS_PER_DOC :: chunksGo fuel ((x :: xs).drop WORDS_PER_DOC)

/-- The `batches` list built in `process_file`. -/
def sub_batches {α : Type} (l : List α) : List (List α) := chunksGo l.length l

theorem chunksGo_ne_nil {α : Type} (fuel : Nat) (l : List α) (h : l ≠ []) :
    chunksGo (fuel + 1) l =
      l.take WORDS_PER_DOC :: chunksGo fuel (l.drop WORDS_PER_DOC) := by
  obtain ⟨x, xs, rfl⟩ := List.exists_cons_of_ne_nil h
  rfl

/-- Python `"{:03d}".format n`: decimal digits left-padded with zeros to
width 3. -/
def pad3 (n : Nat) : Str :=
  List.replicate (3 - (Nat.toDigits 10 n).length) '0' ++ Nat.toDigits 10 n

/-- The output path `f"{base}_part{b_idx:03d}.docx"` of `process_file`. -/
def docName (base : Str) (i : Nat) : Str :=
  base ++ "_part".data ++ pad3 i ++ ".docx".data

/-- The (filename, word sub-batch) pairs written by `process_file`: one
document per sub-batch of 10 words, numbered from 1. An empty word list
short-circuits and produces no documents. -/
def process_file_outputs (base : Str) (words : List Str) : List (Str × List Str) :=
  if words = [] then []
  else (List.enumFrom 1 (sub_batches words)).map fun p => (docName base p.1, p.2)

/-- C8: a word list of 23 words yields exactly 3 output documents holding
10, 10 and 3 words, named with zero-padded suffixes part001, part002,
part003. -/
theorem process_file_doc_split (base : Str) (words : List Str)
    (h : words.length = 23) :
    process_file_outputs base words =
      [(base ++ "_part001.docx".data, words.take 10),
       (base ++ "_part002.docx".data, (words.drop 10).take 10),
       (base ++ "_part003.docx".data, words.drop 20)]
    ∧ (words.take 10).length = 10
    ∧ ((words.drop 10).take 10).length = 10
    ∧ (words.drop 20).length = 3 := by
  have hne : words ≠ [] := by
    intro he
    rw [he] at h
    exact absurd h (by decide)
  have h10 : (words.drop 10).length = 13 := by
    rw [List.length_drop, h]
  have h20 : ((words.drop 10).drop 10).length = 3 := by
    rw [List.length_drop, h10]
  have hdd : (words.drop 10).drop 10 = words.drop 20 := by
    rw [List.drop_drop]
  have h20x : (words.drop 20).length = 3 := by
    rw [← hdd]
    exact h20
  have hsb : sub_batches words =
      [words.take 10, (words.drop 10).take 10, words.drop 20] := by
    rw [sub_batches, h,
      chunksGo_ne_nil 22 words hne]
    simp only [WORDS_PER_DOC]
    rw [chunksGo_ne_nil 21 _ (by intro he; rw [he] at h10; exact absurd h10 (by decide))]
    simp only [WORDS_PER_DOC]
    rw [chunksGo_ne_nil 20 _ (by intro he; rw [he] at h20; exact absurd h20 (by decide))]
    simp only [WORDS_PER_DOC]
    rw [hdd]
    have hnil : (words.drop 20).drop 10 = [] := by
      refine List.eq_nil_of_length_eq_zero ?_
      rw [List.length_drop, h20x]
    rw [hnil,
      List.take_of_length_le (show (words.drop 20).length ≤ 10 by rw [h20x]; norm_num)]
    rfl
  refine ⟨?_, ?_, ?_, ?_⟩
  · rw [process_file_outputs, if_neg hne, hsb]
    simp only [List.enumFrom, List.map_cons, List.map_nil]
    have hd1 : docName base 1 = base ++ "_part001.docx".data := by
      rw [docName, List.append_assoc, List.append_assoc]
      congr 1
    have hd2 : docName base 2 = base ++ "_part002.docx".data := by
      rw [docName, List.append_assoc, List.append_assoc]
      congr 1
    have hd3 : docName base 3 = base ++ "_part003.docx".data := by
      rw [docName, List.append_assoc, List.append_assoc]
      congr 1
    rw [hd1, hd2, hd3]
  · rw [List.length_take, h]
    omega
  · rw [List.length_take, h10]
    omega
  · rw [List.length_drop, h]

/-- C8 witness: a concrete 23-word list produces the three expected
documents. -/
theorem process_file_doc_split_witness :
    process_file_outputs ("french_A1_x".data) (List.replicate 23 ("mot".data)) =
      [("french_A1_x".data ++ "_part001.docx".data,
          (List.replicate 23 ("mot".data)).take 10),
       ("french_A1_x".data ++ "_part002.docx".data,
          ((List.replicate 23 ("mot".data)).drop 10).take 10),
       ("french_A1_x".data ++ "_part003.docx".data,
          (List.replicate 23 ("mot".data)).drop 20)]
    ∧ ((List.replicate 23 ("mot".data)).take 10).length = 10
    ∧ (((List.replicate 23 ("mot".data)).drop 10).take 10).length = 10
    ∧ ((List.replicate 23 ("mot".data)).drop 20).length = 3 :=
  process_file_doc_split ("french_A1_x".data) (List.replicate 23 ("mot".data))
    (by decide)

/-! ## Processed ledger (main of generate_sentences.py) -/

/-- The watcher state of `main` in generate_sentences.py: the in-memory
processed set, the on-disk ledger lines, and the trace of files actually
handed to `process_file`. -/
structure LedgerState where
  processed : List Str
  ledger : List Str
  events : List Str

/-- One directory scan: each candidate file not in the processed set is
processed (recorded in `events`), appended to the ledger file, and added to
the in-memory set. -/
def scanFiles : LedgerState → List Str → LedgerState
  | st, [] => st
  | st, f :: fs =>
    if f ∈ st.processed then scanFiles st fs
    else
      scanFiles
        { processed := f :: st.processed,
          ledger := st.ledger ++ [f],
          events := st.events ++ [f] } fs

/-- The polling loop: a sequence of directory scans. -/
def runScans : LedgerState → List (List Str) → LedgerState
  | st, [] => st
  | st, scan :: rest => runScans (scanFiles st scan) rest

/-- Startup: `load_processed` turns the ledger file into the in-memory set
and nothing has been processed in this run yet. -/
def initState (initLedger : List Str) : LedgerState :=
  { processed := initLedger, ledger := initLedger, events := [] }

/-- Loop invariant tying the ledger file, the in-memory set and the trace of
processed files to the startup ledger. -/
def LedgerInv (init : List Str) (st : LedgerState) : Prop :=
  st.ledger = init ++ st.events
  ∧ (∀ f, f ∈ st.processed ↔ f ∈ st.ledger)
  ∧ st.ledger.Nodup

theorem scanFiles_inv (init : List Str) :
    ∀ (fs : List Str) (st : LedgerState),
      LedgerInv init st → LedgerInv init (scanFiles st fs) := by
  intro fs
  induction fs with
  | nil => intro st h; exact h
  | cons f fs ih =>
    intro st h
    rw [scanFiles]
    by_cases hf : f ∈ st.processed
    · rw [if_pos hf]
      exact ih st h
    · rw [if_neg hf]
      refine ih _ ⟨?_, ?_, ?_⟩
      · show st.ledger ++ [f] = init ++ (st.events ++ [f])
        rw [h.1, List.append_assoc]
      · intro g
        show g ∈ f :: st.processed ↔ g ∈ st.ledger ++ [f]
        rw [List.mem_cons, List.mem_append, List.mem_singleton, h.2.1 g]
        tauto
      · show (st.ledger ++ [f]).Nodup
        refine List.Nodup.append h.2.2 (List.nodup_singleton f) ?_
        intro a ha hf1
        rw [List.mem_singleton] at hf1
        subst hf1
        exact hf ((h.2.1 a).2 ha)

theorem runScans_inv (init : List Str) :
    ∀ (scans : List (List Str)) (st : LedgerState),
      LedgerInv init st → LedgerInv init (runScans st scans) := by
  intro scans
  induction scans with
  | nil => intro st h; exact h
  | cons scan rest ih =>
    intro st h
    exact ih _ (scanFiles_inv init scan st h)

/-- C6: starting a clean run from a duplicate-free ledger, over any sequence
of directory scans the ledger only grows (the old ledger is a prefix of the
new one), never contains a path twice, no file is processed twice, and a
file already in the startup ledger is never processed again. -/
theorem ledger_idempotent (initLedger : List Str) (scans : List (List Str))
    (hnd : initLedger.Nodup) :
    initLedger <+: (runScans (initState initLedger) scans).ledger
    ∧ (runScans (initState initLedger) scans).ledger.Nodup
    ∧ (runScans (initState initLedger) scans).events.Nodup
    ∧ ∀ f ∈ initLedger, f ∉ (runScans (initState initLedger) scans).events := by
  have hinv : LedgerInv initLedger (runScans (initState initLedger) scans) :=
    runScans_inv initLedger scans (initState initLedger)
      ⟨(List.append_nil initLedger).symm, fun _ => Iff.rfl, hnd⟩
  have hnodup := hinv.2.2
  rw [hinv.1] at hnodup
  refine ⟨⟨(runScans (initState initLedger) scans).events, hinv.1.symm⟩,
    hinv.2.2, hnodup.of_append_right, ?_⟩
  intro f hf
  exact List.disjoint_of_nodup_append hnodup hf

/-- C6 witness: one file pre-recorded in the ledger, two scans with
overlapping and repeated candidates. -/
theorem ledger_idempotent_witness :
    ["a".data] <+:
      (runScans (initState ["a".data])
        [["a".data, "b".data], ["b".data, "c".data, "b".data]]).ledger
    ∧ (runScans (initState ["a".data])
        [["a".data, "b".data], ["b".data, "c".data, "b".data]]).ledger.Nodup
    ∧ (runScans (initState ["a".data])
        [["a".data, "b".data], ["b".data, "c".data, "b".data]]).events.Nodup
    ∧ ∀ f ∈ ["a".data],
        f ∉ (runScans (initState ["a".data])
          [["a".data, "b".data], ["b".data, "c".data, "b".data]]).events :=
  ledger_idempotent ["a".data] [["a".data, "b".data], ["b".data, "c".data, "b".data]]
    (by decide)

/-! ## Job supervisor (job_manager.py) -/

/-- Errors `start_job` can raise: "A job is already running" and
"Unknown job_type". -/
inductive StartErr
  | alreadyRunning
  | unknownJobType
deriving DecidableEq

/-- Errors the process-termination calls can raise (swallowed by `stop`). -/
inductive TermErr
  | timedOut
  | other
deriving DecidableEq

/-- The `Job` dataclass. The process handle is abstracted by `pid`; liveness
(`process.poll() is None`) is supplied by the environment. -/
structure Job where
  id : Str
  job_type : Str
  log_path : Str
  started_at : Nat
  pid : Nat
deriving DecidableEq

/-- The job id `f"{job_type}_{ts}"` (timestamp has second granularity). -/
def mkId (jt ts : Str) : Str := jt ++ '_' :: ts

/-- The guard `_current_job and _current_job.process.poll() is None`: a
current Job exists and its process is still alive. -/
def pollAlive (cur : Option Job) (alive : Job → Bool) : Bool :=
  match cur with
  | some j => alive j
  | none => false

/-- `start_job`: raise if the current Job's process has not exited, raise on
an unknown job type, otherwise build the new Job. `ts` is the formatted
timestamp, `pid` the spawned process, `now` the later `datetime.now()`. -/
def start_job (cur : Option Job) (alive : Job → Bool) (jt ts logDir : Str)
    (pid now : Nat) : Except StartErr Job :=
  if pollAlive cur alive then .error .alreadyRunning
  else if jt = "words".data ∨ jt = "sentences".data then
    .ok { id := mkId jt ts, job_type := jt,
          log_path := logDir ++ '/' :: (mkId jt ts ++ ".log".data),
          started_at := now, pid := pid }
  else .error .unknownJobType

/-- The module-level `_current_job` after a call to `start_job`: replaced on
success, untouched when the call raises. -/
def start_job_state (cur : Option Job) (alive : Job → Bool) (jt ts logDir : Str)
    (pid now : Nat) : Option Job :=
  match start_job cur alive jt ts logDir pid now with
  | .ok j => some j
  | .error _ => cur

theorem mkId_ne (jt pjt ts pts : Str)
    (hjt : jt = "words".data ∨ jt = "sentences".data)
    (hpjt : pjt = "words".data ∨ pjt = "sentences".data)
    (hne : jt ≠ pjt ∨ ts ≠ pts) : mkId jt ts ≠ mkId pjt pts := by
  rcases hjt with rfl | rfl <;> rcases hpjt with rfl | rfl
  · intro h
    have h3 : '_' :: ts = '_' :: pts := List.append_cancel_left h
    injection h3 with _ h4
    rcases hne with hne | hne
    · exact hne rfl
    · exact hne h4
  · intro h
    have h2 : (some 'w' : Option Char) = some 's' := congrArg List.head? h
    exact absurd h2 (by decide)
  · intro h
    have h2 : (some 's' : Option Char) = some 'w' := congrArg List.head? h
    exact absurd h2 (by decide)
  · intro h
    have h3 : '_' :: ts = '_' :: pts := List.append_cancel_left h
    injection h3 with _ h4
    rcases hne with hne | hne
    · exact hne rfl
    · exact hne h4

/-- C1 (amended): if a current Job exists and its process has not exited,
`start_job` fails with the already-running error and leaves the current Job
unchanged; otherwise, for a known job type, it succeeds and installs a new
Job whose id is the job type and timestamp joined by an underscore — an id
distinct from the previous Job's id whenever the (type, timestamp) pair
differs from the pair encoded in the previous id (ids collide when type and
second-granularity timestamp coincide). -/
theorem start_job_spec (cur : Option Job) (alive : Job → Bool)
    (jt ts logDir : Str) (pid now : Nat) :
    (∀ j, cur = some j → alive j = true →
        start_job cur alive jt ts logDir pid now = .error .alreadyRunning
        ∧ start_job_state cur alive jt ts logDir pid now = cur)
    ∧ ((∀ j, cur = some j → alive j = false) →
        (jt = "words".data ∨ jt = "sentences".data) →
        ∃ nj, start_job cur alive jt ts logDir pid now = .ok nj
          ∧ start_job_state cur alive jt ts logDir pid now = some nj
          ∧ nj.id = mkId jt ts
          ∧ ∀ j pts, cur = some j → j.id = mkId j.job_type pts →
              (j.job_type = "words".data ∨ j.job_type = "sentences".data) →
              (jt ≠ j.job_type ∨ ts ≠ pts) →
              nj.id ≠ j.id) := by
  constructor
  · intro j hj halive
    subst hj
    have hcond : pollAlive (some j) alive = true := halive
    constructor
    · rw [start_job.eq_def, if_pos hcond]
    · rw [start_job_state, start_job.eq_def, if_pos hcond]
  · intro hdead hjt
    have hcond : pollAlive cur alive = false := by
      cases cur with
      | none => rfl
      | some j => exact hdead j rfl
    refine ⟨{ id := mkId jt ts, job_type := jt,
              log_path := logDir ++ '/' :: (mkId jt ts ++ ".log".data),
              started_at := now, pid := pid }, ?_, ?_, rfl, ?_⟩
    · rw [start_job.eq_def, if_neg (by simp [hcond]), if_pos hjt]
    · rw [start_job_state, start_job.eq_def, if_neg (by simp [hcond]), if_pos hjt]
    · intro j pts hj hjid hpjt hne
      show mkId jt ts ≠ j.id
      rw [hjid]
      exact mkId_ne jt j.job_type ts pts hjt hpjt hne

/-- The previous words job, started at timestamp 20240101-000000 exactly as
`start_job` would have created it. -/
def jobA : Job :=
  { id := mkId ("words".data) ("20240101-000000".data),
    job_type := "words".data,
    log_path := "logs".data ++ '/' ::
      (mkId ("words".data) ("20240101-000000".data) ++ ".log".data),
    started_at := 0, pid := 1 }

/-- The job created by a second `start_job` call at the same timestamp. -/
def jobB : Job :=
  { id := mkId ("words".data) ("20240101-000000".data),
    job_type := "words".data,
    log_path := "logs".data ++ '/' ::
      (mkId ("words".data) ("20240101-000000".data) ++ ".log".data),
    started_at := 1, pid := 2 }

/-- C1 counterexample: with the previous words job already exited, a second
words job started within the same second succeeds but reuses the very same
id — the new Job's id is NOT distinct from the previous Job's id. -/
theorem start_job_id_collision :
    start_job (some jobA) (fun _ => false) ("words".data)
        ("20240101-000000".data) ("logs".data) 2 1 = .ok jobB
      ∧ jobB.id = jobA.id :=
  ⟨rfl, rfl⟩

/-- C1 witness: when the timestamps differ, the second start succeeds with a
fresh id distinct from the previous Job's id, and the stale-job start is
refused while the previous process is still alive. -/
theorem start_job_spec_witness :
    (∃ nj, start_job (some jobA) (fun _ => false) ("words".data)
        ("20240101-000001".data) ("logs".data) 2 1 = .ok nj
      ∧ nj.id ≠ jobA.id)
    ∧ start_job (some jobA) (fun _ => true) ("words".data)
        ("20240101-000001".data) ("logs".data) 2 1 = .error .alreadyRunning := by
  constructor
  · obtain ⟨nj, h1, -, -, h4⟩ :=
      (start_job_spec (some jobA) (fun _ => false) ("words".data)
        ("20240101-000001".data) ("logs".data) 2 1).2
        (fun _ _ => rfl) (Or.inl rfl)
    exact ⟨nj, h1, h4 jobA ("20240101-000000".data) rfl rfl (Or.inl rfl)
      (Or.inr (by decide))⟩
  · exact ((start_job_spec (some jobA) (fun _ => true) ("words".data)
      ("20240101-000001".data) ("logs".data) 2 1).1 jobA rfl rfl).1

/-- `stop_current_job`: no-op when there is no current Job; otherwise, if the
process is still alive, request termination and wait — any exception from
terminate/wait (an erroring `term` outcome) is swallowed — and finally clear
the current-job slot. -/
def stop_current_job (cur : Option Job) (alive : Job → Bool)
    (term : Job → Except TermErr Unit) : Option Job :=
  match cur with
  | none => cur
  | some j =>
    if alive j then
      match term j with
      | .ok _ => none
      | .error _ => none
    else none

/-- `get_current_job` returns the module-level current job slot. -/
def get_current_job (cur : Option Job) : Option Job := cur

/-- C7: `stop_current_job` is a total function of the state and of any
termination outcome (wait errors are swallowed, so it never raises); with no
current Job the state is unchanged (still none), and in every case the slot
ends cleared, so status afterwards reports no job. -/
theorem stop_current_job_spec (cur : Option Job) (alive : Job → Bool)
    (term : Job → Except TermErr Unit) :
    get_current_job (stop_current_job cur alive term) = none := by
  cases cur with
  | none => rfl
  | some j =>
    rw [get_current_job]
    show (if alive j then match term j with
      | .ok _ => none | .error _ => none else none) = none
    by_cases h : alive j = true
    · rw [if_pos h]
      cases term j with
      | ok u => rfl
      | error e => rfl
    · rw [if_neg h]

/-! ## Per-call request size (main of generate_words.py) -/

/-- Python `int(q)` on an exact rational value: truncation toward zero. -/
def pyInt (q : ℚ) : ℤ := Int.tdiv q.num q.den

/-- `want_per_call = max(int(batch_size * args.multiplier), batch_size + 20)`
from `main` of generate_words.py, the float multiplier modelled as an exact
rational. -/
def want_per_call (batch_size : ℤ) (multiplier : ℚ) : ℤ :=
  max (pyInt ((batch_size : ℚ) * multiplier)) (batch_size + 20)

/-- C9: for every target batch size B and multiplier, the per-call request
count equals max(trunc(B · multiplier), B + 20), and is therefore at least
B. -/
theorem want_per_call_spec (B : ℤ) (m : ℚ) :
    want_per_call B m = max (pyInt ((B : ℚ) * m)) (B + 20)
    ∧ B ≤ want_per_call B m :=
  ⟨rfl, le_trans (by omega) (le_max_right (pyInt ((B : ℚ) * m)) (B + 20))⟩

end FrenchVocab
